import Mathlib

/-!
Verification of the wordlist autocomplete core: the `Trie` prefix index
(`lib/Trie.ts`) and the fixed-window rate limiter (`lib/rateLimit.ts`).

Modelling conventions:
* A JS `Map<string, TrieNode>` keyed by single characters is modelled as an
  association list `List (Char × TrieNode)`; JS `Map.set` on an existing key
  updates the value in place (keeping the key's insertion position), and
  otherwise appends, which is exactly what `setChild` does.  Iteration over
  `Map.values()` is in insertion order, i.e. list order.
* `String.prototype.toLowerCase` is modelled per code point by
  `Char.toLower`; `for (const c of s)` iterates code points, i.e. `s.data`.
* JS truthiness: `node.word` is truthy iff it is defined and non-empty;
  `!word || word.length === 0` is `word = ""`; an absent header is `none`
  and an empty header string is falsy.
* Mutation is modelled by explicit state passing; `Date.now()` timestamps
  are `Nat` milliseconds.
-/

/-- Per-code-point model of `toLowerCase` as a character list. -/
def lowerChars (s : String) : List Char := s.data.map Char.toLower

/-- `TrieNode` from `lib/Trie.ts`: insertion-ordered child map, terminal
flag `isEndOfWord`, and the optional stored original-cased `word`. -/
inductive TrieNode : Type where
  | mk (children : List (Char × TrieNode)) (isEndOfWord : Bool) (word : Option String)

namespace TrieNode

def children : TrieNode → List (Char × TrieNode)
  | .mk cs _ _ => cs

def isEndOfWord : TrieNode → Bool
  | .mk _ e _ => e

def word : TrieNode → Option String
  | .mk _ _ w => w

end TrieNode

/-- The root node of `new Trie()`: no children, not terminal, no word. -/
def emptyNode : TrieNode := .mk [] false none

/-- `children.get(c)` / `children.has(c)`: first entry with key `c`. -/
def lookupChild : List (Char × TrieNode) → Char → Option TrieNode
  | [], _ => none
  | (c', t) :: rest, c => if c' = c then some t else lookupChild rest c

/-- `children.set(c, t)`: update the entry for `c` in place if present
(JS `Map.set` keeps the original insertion position), else append. -/
def setChild : List (Char × TrieNode) → Char → TrieNode → List (Char × TrieNode)
  | [], c, t => [(c, t)]
  | (c', t') :: rest, c, t =>
      if c' = c then (c', t) :: rest else (c', t') :: setChild rest c t

/-- The descent loop of `Trie.insert` over the lowercased word, followed by
marking the final node: missing children are created, and at the end of the
path `isEndOfWord` is set and `word` is overwritten unconditionally. -/
def insertChars : TrieNode → List Char → String → TrieNode
  | .mk cs _ _, [], w => .mk cs true (some w)
  | .mk cs e w0, c :: rest, w =>
      let child := (lookupChild cs c).getD emptyNode
      .mk (setChild cs c (insertChars child rest w)) e w0

namespace Trie

/-- `Trie.insert(word)`: no-op on the empty string, otherwise descends the
lowercased word and stores the original casing at the final node. -/
def insert (t : TrieNode) (w : String) : TrieNode :=
  if w = "" then t else insertChars t (lowerChars w) w

/-- `Trie.buildFromArray(words)`: insert each word in order. -/
def buildFromArray (t : TrieNode) (ws : List String) : TrieNode :=
  ws.foldl insert t

/-- The navigation loop shared by `search` and `contains`: descend one
character at a time, failing if a child is missing. -/
def nodeAt : TrieNode → List Char → Option TrieNode
  | t, [] => some t
  | t, c :: rest =>
      match lookupChild t.children c with
      | none => none
      | some child => nodeAt child rest

/-- `Trie.contains(word)`: false on the empty string; otherwise descend the
lowercased word and return the final node's `isEndOfWord`. -/
def contains (t : TrieNode) (w : String) : Bool :=
  if w = "" then false
  else
    match nodeAt t (lowerChars w) with
    | none => false
    | some nd => nd.isEndOfWord

end Trie

mutual

/-- `Trie._dfs(node, results, maxResults)`: stop at the cap, push the stored
word when `isEndOfWord && word` is truthy (defined and non-empty), then
recurse through the children in insertion order, breaking at the cap. -/
def dfs : TrieNode → List String → Nat → List String
  | .mk cs e w, results, maxResults =>
      if results.length ≥ maxResults then results
      else
        let results :=
          match w with
          | some wd => if e && wd ≠ "" then results ++ [wd] else results
          | none => results
        dfsChildren cs results maxResults

/-- The `for (const child of node.children.values())` loop of `_dfs`. -/
def dfsChildren : List (Char × TrieNode) → List String → Nat → List String
  | [], results, _ => results
  | (_, t) :: rest, results, maxResults =>
      let results := dfs t results maxResults
      if results.length ≥ maxResults then results
      else dfsChildren rest results maxResults

end

/-- `Trie.search(prefix, maxResults)`: empty result on an empty prefix,
descend the lowercased prefix, then depth-first collect up to the cap. -/
def Trie.search (t : TrieNode) (pre : String) (maxResults : Nat) : List String :=
  if pre = "" then []
  else
    match Trie.nodeAt t (lowerChars pre) with
    | none => []
    | some nd => dfs nd [] maxResults

mutual

/-- `Trie._countWords(node, count)`: thread the count through a pre-order
traversal, adding one per terminal node, and return it. -/
def countWords : TrieNode → Nat → Nat
  | .mk cs e _, count => countWordsChildren cs (if e then count + 1 else count)

/-- The child loop of `_countWords`. -/
def countWordsChildren : List (Char × TrieNode) → Nat → Nat
  | [], count => count
  | (_, t) :: rest, count => countWordsChildren rest (countWords t count)

end

/-- `Trie.getSize()`: declares `count = 0`, calls `_countWords(root, count)`
but discards its return value (JS numbers are passed by value, so the local
`count` is never updated), and returns `count`. -/
def Trie.getSize (t : TrieNode) : Nat :=
  let count := 0
  let _ := countWords t count
  count

/-- A counter record of `lib/rateLimit.ts`: `{count, resetTime}`. -/
structure RLRecord where
  count : Nat
  resetTime : Nat
deriving DecidableEq, Repr

/-- The `requestCounts` map, as an insertion-ordered association list. -/
abbrev RLState := List (String × RLRecord)

/-- `RATE_LIMIT_WINDOW_MS = 60000`. -/
def RATE_LIMIT_WINDOW_MS : Nat := 60000

/-- `MAX_REQUESTS_PER_WINDOW = 100`. -/
def MAX_REQUESTS_PER_WINDOW : Nat := 100

/-- `requestCounts.get(ip)`. -/
def rlGet : RLState → String → Option RLRecord
  | [], _ => none
  | (k, r) :: rest, ip => if k = ip then some r else rlGet rest ip

/-- `requestCounts.set(ip, r)`: update in place or append. -/
def rlSet : RLState → String → RLRecord → RLState
  | [], ip, r => [(ip, r)]
  | (k, r') :: rest, ip, r =>
      if k = ip then (k, r) :: rest else (k, r') :: rlSet rest ip r

/-- `checkRateLimit(ip)` at time `now`: fresh/expired keys get
`{count: 1, resetTime: now + RATE_LIMIT_WINDOW_MS}` and are admitted; an
unexpired record at or over `MAX_REQUESTS_PER_WINDOW` is rejected without
touching the map; otherwise the count is incremented and admitted. -/
def checkRateLimit (st : RLState) (ip : String) (now : Nat) : Bool × RLState :=
  match rlGet st ip with
  | none => (true, rlSet st ip ⟨1, now + RATE_LIMIT_WINDOW_MS⟩)
  | some r =>
      if now > r.resetTime then (true, rlSet st ip ⟨1, now + RATE_LIMIT_WINDOW_MS⟩)
      else if r.count ≥ MAX_REQUESTS_PER_WINDOW then (false, st)
      else (true, rlSet st ip ⟨r.count + 1, r.resetTime⟩)

/-- Code-point model of `s.split(",")[0]`: the characters before the first
comma (the whole string when there is no comma). -/
def beforeComma : List Char → List Char
  | [] => []
  | c :: rest => if c = ',' then [] else c :: beforeComma rest

/-- Code-point model of `String.prototype.trim`: drop leading and trailing
whitespace. -/
def trimChars (l : List Char) : List Char :=
  ((l.dropWhile Char.isWhitespace).reverse.dropWhile Char.isWhitespace).reverse

/-- `getClientIP(request)`: the `x-forwarded-for` header is `none` when
absent; a present header is truthy only when non-empty, in which case
`forwarded.split(",")[0].trim()` is returned; otherwise `"unknown"`. -/
def getClientIP (forwarded : Option String) : String :=
  match forwarded with
  | none => "unknown"
  | some s => if s = "" then "unknown" else String.mk (trimChars (beforeComma s.data))

/-- Modelled from the spec: "takes the first entry, trims whitespace" — the
substring of the header value before the first comma, with surrounding
whitespace trimmed.  Used to compare `getClientIP` against the claim. -/
def specFirstEntry (s : String) : String := String.mk (trimChars (beforeComma s.data))

/-- The original form stored in the index for a lowercase key `q`: the
`word` of the node reached by `q`, provided that node is terminal. -/
def storedAt (t : TrieNode) (q : List Char) : Option String :=
  match Trie.nodeAt t q with
  | some nd => if nd.isEndOfWord then nd.word else none
  | none => none

/-- The words `_dfs` pushes at one node: the singleton stored word when
`isEndOfWord && word` is truthy, else nothing. -/
def pushList (e : Bool) (w : Option String) : List String :=
  match w with
  | some wd => if e && wd ≠ "" then [wd] else []
  | none => []

mutual

/-- The unbounded pre-order enumeration underlying `_dfs`: the words that
`_dfs` would collect from this node with no result cap, in traversal
order.  `dfs` is proved to be `take maxResults` of this list. -/
def dfsAll : TrieNode → List String
  | .mk cs e w => pushList e w ++ dfsAllChildren cs

/-- Pre-order enumeration over a child list, in insertion order. -/
def dfsAllChildren : List (Char × TrieNode) → List String
  | [] => []
  | (_, t) :: rest => dfsAll t ++ dfsAllChildren rest

end

/-- The full (uncapped) pre-order result sequence of `Trie.search`: the
qualifying entries below the prefix node, in traversal order. -/
def searchAll (t : TrieNode) (pre : String) : List String :=
  if pre = "" then []
  else
    match Trie.nodeAt t (lowerChars pre) with
    | none => []
    | some nd => dfsAll nd

/-- Well-formedness of a trie node sitting at path `q` from the root: a
terminal node stores a non-empty word whose lowercase form spells `q`,
child keys are distinct (JS `Map` keys are unique), and each child is
well-formed at its extended path.  Every trie built by `insert` from the
empty root satisfies `WF []`. -/
inductive WF : List Char → TrieNode → Prop where
  | mk : ∀ (q : List Char) (cs : List (Char × TrieNode)) (e : Bool) (w : Option String),
      (e = true → ∃ s, w = some s ∧ s ≠ "" ∧ lowerChars s = q) →
      (cs.map Prod.fst).Nodup →
      (∀ c t, (c, t) ∈ cs → WF (q ++ [c]) t) →
      WF q (.mk cs e w)

/-- `n` sequential `checkRateLimit` calls for key `k`, all at time `now`;
the boolean is the conjunction of the admit results. -/
def repeatCalls (st : RLState) (k : String) (now : Nat) : Nat → Bool × RLState
  | 0 => (true, st)
  | n + 1 =>
      let p := checkRateLimit st k now
      let q := repeatCalls p.2 k now n
      (p.1 && q.1, q.2)

/-- The limiter state after a sequence of calls for key `k` at the given
times. -/
def applyCalls (st : RLState) (k : String) : List Nat → RLState
  | [] => st
  | t :: ts => applyCalls (checkRateLimit st k t).2 k ts

/-- The limiter state after an arbitrary interleaved call trace of
(key, time) pairs. -/
def applyTrace (st : RLState) : List (String × Nat) → RLState
  | [] => st
  | (k, t) :: rest => applyTrace (checkRateLimit st k t).2 rest

/-! ### Basic lemmas about child lookup and insertion -/

theorem lookupChild_setChild_self (cs : List (Char × TrieNode)) (c : Char) (t : TrieNode) :
    lookupChild (setChild cs c t) c = some t := by
  induction cs with
  | nil => simp [setChild, lookupChild]
  | cons hd rest ih =>
      obtain ⟨c', t'⟩ := hd
      by_cases h : c' = c
      · simp [setChild, h, lookupChild]
      · simp [setChild, h, lookupChild, ih]

theorem nodeAt_insertChars (cs : List Char) :
    ∀ (t : TrieNode) (w : String), ∃ ch,
      Trie.nodeAt (insertChars t cs w) cs = some (TrieNode.mk ch true (some w)) := by
  induction cs with
  | nil =>
      intro t w
      cases t with
      | mk cs0 e w0 => exact ⟨cs0, rfl⟩
  | cons c rest ih =>
      intro t w
      cases t with
      | mk cs0 e w0 =>
          obtain ⟨ch, hch⟩ := ih ((lookupChild cs0 c).getD emptyNode) w
          refine ⟨ch, ?_⟩
          simp [insertChars, Trie.nodeAt, TrieNode.children, lookupChild_setChild_self, hch]

theorem lowerChars_eq_nil_iff (s : String) : lowerChars s = [] ↔ s = "" := by
  constructor
  · intro h
    have hd : s.data = [] := by
      simpa [lowerChars] using h
    cases s with
    | mk d =>
        simp only at hd
        rw [hd]
  · intro h
    subst h
    rfl

/-! ### Claims C1, C2, C6, C7, C9 -/

/-- Claim C1, counterexample: inserting `"Apple"` then `"APPLE"` then
`"apple"` into an empty trie, `search("app")` yields the single result
`"apple"` — the last inserted casing, not `"Apple"` as the claim states
(`insert` overwrites `node.word` unconditionally). -/
theorem c1_counterexample :
    Trie.search (Trie.insert (Trie.insert (Trie.insert emptyNode "Apple") "APPLE") "apple")
        "app" 100 = ["apple"] ∧
    ("apple" : String) ≠ "Apple" := by
  exact ⟨by decide, by decide⟩

/-- Claim C1, amended: last-insert-wins for original casing — for every
trie and non-empty word `w`, `insert(w)` sets the stored original form for
`w`'s lowercase key to `w` itself, overwriting any previous casing; in the
Apple/APPLE/apple scenario, `search("app")` yields exactly one result,
`"apple"`. -/
theorem c1_last_insert_wins :
    (∀ (t : TrieNode) (w : String), w ≠ "" →
        storedAt (Trie.insert t w) (lowerChars w) = some w) ∧
    Trie.search (Trie.insert (Trie.insert (Trie.insert emptyNode "Apple") "APPLE") "apple")
        "app" 100 = ["apple"] := by
  constructor
  · intro t w hw
    obtain ⟨ch, hch⟩ := nodeAt_insertChars (lowerChars w) t w
    simp [Trie.insert, hw, storedAt, hch, TrieNode.isEndOfWord, TrieNode.word]
  · decide

/-- Claim C1 witness: after inserting `"Apple"` into the empty trie, the
stored original form for its lowercase key is `"Apple"`. -/
theorem c1_witness :
    storedAt (Trie.insert emptyNode "Apple") (lowerChars "Apple") = some "Apple" :=
  c1_last_insert_wins.1 emptyNode "Apple" (by decide)

/-- Claim C2: `getSize()` discards the value returned by `_countWords`
(JS numbers are passed by value, so the local `count` stays `0`) and hence
returns `0` even though the trie holding `"apple"` has one terminal node,
as `_countWords` itself correctly computes. -/
theorem c2_getSize_returns_zero :
    Trie.getSize (Trie.insert emptyNode "apple") = 0 ∧
    countWords (Trie.insert emptyNode "apple") 0 = 1 := by
  exact ⟨rfl, by decide⟩

/-- Claim C6: insert-then-contains, case-insensitively — after inserting a
non-empty word `w` into any trie, `contains(c)` is true for every string
`c` with the same lowercase form as `w`. -/
theorem c6_insert_contains (t : TrieNode) (w c : String) (hw : w ≠ "")
    (hlc : lowerChars c = lowerChars w) :
    Trie.contains (Trie.insert t w) c = true := by
  have hc : c ≠ "" := by
    intro h
    apply hw
    rw [← lowerChars_eq_nil_iff]
    rw [← hlc, h]
    rfl
  obtain ⟨ch, hch⟩ := nodeAt_insertChars (lowerChars w) t w
  simp [Trie.insert, hw, Trie.contains, hc, hlc, hch, TrieNode.isEndOfWord]

/-- Claim C6 witness: `contains("APPLE")` holds after `insert("Apple")`. -/
theorem c6_witness : Trie.contains (Trie.insert emptyNode "Apple") "APPLE" = true :=
  c6_insert_contains emptyNode "Apple" "APPLE" (by decide) (by decide)

/-- Claim C7: empty input degrades to no-match without error — for every
trie, `search("")` is empty, `contains("")` is false, and `insert("")`
leaves the trie unchanged (all three are total functions). -/
theorem c7_empty_input_degrades (t : TrieNode) (n : Nat) :
    Trie.search t "" n = [] ∧ Trie.contains t "" = false ∧ Trie.insert t "" = t := by
  refine ⟨?_, ?_, ?_⟩ <;> simp [Trie.search, Trie.contains, Trie.insert]

/-- Claim C7 witness: the three empty-input cases on a concrete non-empty
trie. -/
theorem c7_witness :
    Trie.search (Trie.insert emptyNode "cat") "" 5 = [] ∧
    Trie.contains (Trie.insert emptyNode "cat") "" = false ∧
    Trie.insert (Trie.insert emptyNode "cat") "" = Trie.insert emptyNode "cat" :=
  c7_empty_input_degrades (Trie.insert emptyNode "cat") 5

/-- Claim C9, counterexample: a present-but-empty forwarded header is falsy
in JS, so `getClientIP` returns `"unknown"` for it, while the substring
before the first comma of `""`, trimmed, is `""`. -/
theorem c9_counterexample :
    getClientIP (some "") = "unknown" ∧ specFirstEntry "" = "" ∧
    ("unknown" : String) ≠ "" := by
  exact ⟨rfl, by decide, by decide⟩

/-- Claim C9, amended: when the forwarded header is present and non-empty,
`getClientIP` returns the substring before the first comma with surrounding
whitespace trimmed; when the header is absent — or present but empty, which
JS treats as falsy — it returns the sentinel `"unknown"`. -/
theorem c9_keyFromSource :
    (∀ s : String, s ≠ "" → getClientIP (some s) = specFirstEntry s) ∧
    getClientIP none = "unknown" ∧ getClientIP (some "") = "unknown" := by
  refine ⟨?_, rfl, rfl⟩
  intro s hs
  simp [getClientIP, specFirstEntry, hs]

/-- Claim C9 witness: `"1.2.3.4, 5.6.7.8"` yields `"1.2.3.4"`. -/
theorem c9_witness : getClientIP (some "1.2.3.4, 5.6.7.8") = "1.2.3.4" :=
  (c9_keyFromSource.1 "1.2.3.4, 5.6.7.8" (by decide)).trans (by decide)

/-! ### Rate limiter lemmas and claims C3, C8, C10 -/

theorem rlGet_rlSet_ne (st : RLState) (k k' : String) (r : RLRecord) (h : k ≠ k') :
    rlGet (rlSet st k r) k' = rlGet st k' := by
  induction st with
  | nil => simp [rlSet, rlGet, h]
  | cons hd rest ih =>
      obtain ⟨k0, r0⟩ := hd
      by_cases h0 : k0 = k
      · subst h0
        simp [rlSet, rlGet, h]
      · simp [rlSet, rlGet, h0, ih]

theorem checkRateLimit_rlGet_other (st : RLState) (A B : String) (now : Nat) (h : A ≠ B) :
    rlGet (checkRateLimit st A now).2 B = rlGet st B := by
  unfold checkRateLimit
  cases hr : rlGet st A with
  | none => simp [rlGet_rlSet_ne st A B _ h]
  | some r =>
      by_cases h1 : now > r.resetTime
      · simp [h1, rlGet_rlSet_ne st A B _ h]
      · by_cases h2 : r.count ≥ MAX_REQUESTS_PER_WINDOW
        · simp [h1, h2]
        · simp [h1, h2, rlGet_rlSet_ne st A B _ h]

theorem applyCalls_rlGet_other (A B : String) (h : A ≠ B) :
    ∀ (times : List Nat) (st : RLState), rlGet (applyCalls st A times) B = rlGet st B := by
  intro times
  induction times with
  | nil => intro st; rfl
  | cons t ts ih =>
      intro st
      rw [applyCalls, ih, checkRateLimit_rlGet_other st A B t h]

theorem checkRateLimit_fst_congr (st st' : RLState) (k : String) (now : Nat)
    (h : rlGet st k = rlGet st' k) :
    (checkRateLimit st k now).1 = (checkRateLimit st' k now).1 := by
  unfold checkRateLimit
  rw [h]
  cases rlGet st' k with
  | none => rfl
  | some r =>
      by_cases h1 : now > r.resetTime
      · simp [h1]
      · by_cases h2 : r.count ≥ MAX_REQUESTS_PER_WINDOW <;> simp [h1, h2]

theorem checkRateLimit_reject_preserves (st : RLState) (k : String) (now : Nat)
    (h : (checkRateLimit st k now).1 = false) : (checkRateLimit st k now).2 = st := by
  cases hr : rlGet st k with
  | none => simp [checkRateLimit, hr] at h
  | some r =>
      by_cases h1 : now > r.resetTime
      · simp [checkRateLimit, hr, h1] at h
      · by_cases h2 : r.count ≥ MAX_REQUESTS_PER_WINDOW
        · simp [checkRateLimit, hr, h1, h2]
        · simp [checkRateLimit, hr, h1, h2] at h

theorem mem_rlSet (st : RLState) (k : String) (r : RLRecord) :
    ∀ e ∈ rlSet st k r, e = (k, r) ∨ e ∈ st := by
  induction st with
  | nil =>
      intro e he
      simp [rlSet] at he
      left; exact he
  | cons hd rest ih =>
      obtain ⟨k0, r0⟩ := hd
      intro e he
      by_cases h0 : k0 = k
      · subst h0
        simp [rlSet] at he
        rcases he with he | he
        · left; rw [he]
        · right; simp [he]
      · simp [rlSet, h0] at he
        rcases he with he | he
        · right; simp [he]
        · rcases ih e he with h | h
          · left; exact h
          · right; simp [h]

theorem rlGet_mem (st : RLState) (k : String) (r : RLRecord) (h : rlGet st k = some r) :
    (k, r) ∈ st := by
  induction st with
  | nil => simp [rlGet] at h
  | cons hd rest ih =>
      obtain ⟨k0, r0⟩ := hd
      by_cases h0 : k0 = k
      · subst h0
        simp [rlGet] at h
        simp [h]
      · simp [rlGet, h0] at h
        simp [ih h]

theorem checkRateLimit_bounded (st : RLState) (k : String) (now : Nat)
    (h : ∀ e ∈ st, (e : String × RLRecord).2.count ≤ 100) :
    ∀ e ∈ (checkRateLimit st k now).2, e.2.count ≤ 100 := by
  intro e he
  unfold checkRateLimit at he
  cases hr : rlGet st k with
  | none =>
      rw [hr] at he
      simp only at he
      rcases mem_rlSet st k _ e he with h1 | h1
      · rw [h1]
        show (1 : Nat) ≤ 100
        decide
      · exact h e h1
  | some r =>
      rw [hr] at he
      by_cases h1 : now > r.resetTime
      · simp only [if_pos h1] at he
        rcases mem_rlSet st k _ e he with h2 | h2
        · rw [h2]
          show (1 : Nat) ≤ 100
          decide
        · exact h e h2
      · by_cases h2 : r.count ≥ MAX_REQUESTS_PER_WINDOW
        · simp only [if_neg h1, if_pos h2] at he
          exact h e he
        · simp only [if_neg h1, if_neg h2] at he
          rcases mem_rlSet st k _ e he with h3 | h3
          · rw [h3]
            show r.count + 1 ≤ 100
            exact Nat.lt_of_not_le h2
          · exact h e h3

theorem applyTrace_bounded :
    ∀ (trace : List (String × Nat)) (st : RLState),
      (∀ e ∈ st, (e : String × RLRecord).2.count ≤ 100) →
      ∀ e ∈ applyTrace st trace, e.2.count ≤ 100 := by
  intro trace
  induction trace with
  | nil => intro st h; exact h
  | cons p rest ih =>
      obtain ⟨k, tnow⟩ := p
      intro st h
      simp only [applyTrace]
      exact ih _ (checkRateLimit_bounded st k tnow h)

/-- Claim C3: fixed-window semantics with the defaults (window 60000 ms,
limit 100) — a fresh or expired key is admitted with record
`{count: 1, resetTime: now + 60000}`; an unexpired record below the limit
is admitted with its count incremented; otherwise the call is rejected.
Consequently, 100 calls at one instant are all admitted, the 101st before
window expiry is rejected, and a call after the window elapses is admitted
resetting the count to 1. -/
theorem c3_fixed_window :
    (∀ (st : RLState) (k : String) (now : Nat),
        (rlGet st k = none ∨ ∃ r, rlGet st k = some r ∧ now > r.resetTime) →
        checkRateLimit st k now = (true, rlSet st k ⟨1, now + 60000⟩)) ∧
    (∀ (st : RLState) (k : String) (now : Nat) (r : RLRecord),
        rlGet st k = some r → ¬ now > r.resetTime → r.count < 100 →
        checkRateLimit st k now = (true, rlSet st k ⟨r.count + 1, r.resetTime⟩)) ∧
    (∀ (st : RLState) (k : String) (now : Nat) (r : RLRecord),
        rlGet st k = some r → ¬ now > r.resetTime → ¬ r.count < 100 →
        checkRateLimit st k now = (false, st)) ∧
    (repeatCalls [] "k" 0 100).1 = true ∧
    (checkRateLimit (repeatCalls [] "k" 0 100).2 "k" 0).1 = false ∧
    checkRateLimit (repeatCalls [] "k" 0 100).2 "k" 60001 = (true, [("k", ⟨1, 120001⟩)]) := by
  refine ⟨?_, ?_, ?_, by decide, by decide, by decide⟩
  · rintro st k now (h | ⟨r, hr, hexp⟩)
    · simp [checkRateLimit, h, RATE_LIMIT_WINDOW_MS]
    · simp [checkRateLimit, hr, hexp, RATE_LIMIT_WINDOW_MS]
  · intro st k now r hr hexp hc
    simp [checkRateLimit, hr, hexp, MAX_REQUESTS_PER_WINDOW, Nat.not_le.mpr hc]
  · intro st k now r hr hexp hc
    simp [checkRateLimit, hr, hexp, MAX_REQUESTS_PER_WINDOW, Nat.not_lt.mp hc]

/-- Claim C3 witness: the three branches at concrete states. -/
theorem c3_witness :
    checkRateLimit [] "k" 5 = (true, [("k", ⟨1, 60005⟩)]) ∧
    checkRateLimit [("k", ⟨7, 60000⟩)] "k" 5 = (true, [("k", ⟨8, 60000⟩)]) ∧
    checkRateLimit [("k", ⟨100, 60000⟩)] "k" 5 = (false, [("k", ⟨100, 60000⟩)]) :=
  ⟨(c3_fixed_window.1 [] "k" 5 (Or.inl rfl)).trans (by decide),
   (c3_fixed_window.2.1 [("k", ⟨7, 60000⟩)] "k" 5 ⟨7, 60000⟩ (by decide) (by decide)
      (by decide)).trans (by decide),
   c3_fixed_window.2.2.1 [("k", ⟨100, 60000⟩)] "k" 5 ⟨100, 60000⟩ (by decide) (by decide)
      (by decide)⟩

/-- Claim C8: rate limiter keys are independent — any sequence of calls for
key `A` leaves `B`'s record unchanged, and the admit/reject result for `B`
is unaffected by `A`'s history. -/
theorem c8_keys_independent (st : RLState) (A B : String) (times : List Nat) (now : Nat)
    (h : A ≠ B) :
    rlGet (applyCalls st A times) B = rlGet st B ∧
    (checkRateLimit (applyCalls st A times) B now).1 = (checkRateLimit st B now).1 := by
  have hg := applyCalls_rlGet_other A B h times st
  exact ⟨hg, checkRateLimit_fst_congr _ _ B now hg⟩

/-- Claim C8 witness: three calls for `"a"` do not disturb `"b"`. -/
theorem c8_witness :
    rlGet (applyCalls [] "a" [0, 0, 0]) "b" = rlGet [] "b" ∧
    (checkRateLimit (applyCalls [] "a" [0, 0, 0]) "b" 0).1 = (checkRateLimit [] "b" 0).1 :=
  c8_keys_independent [] "a" "b" [0, 0, 0] 0 (by decide)

/-- Claim C10: rejection is state-preserving — a `false` result leaves the
map untouched — and consequently every stored count in any state reachable
from the empty map by sequential calls is at most `MAX_REQUESTS_PER_WINDOW`
(100). -/
theorem c10_reject_preserves_state :
    (∀ (st : RLState) (k : String) (now : Nat),
        (checkRateLimit st k now).1 = false → (checkRateLimit st k now).2 = st) ∧
    (∀ (trace : List (String × Nat)) (k : String) (r : RLRecord),
        rlGet (applyTrace [] trace) k = some r → r.count ≤ 100) := by
  constructor
  · exact checkRateLimit_reject_preserves
  · intro trace k r h
    have := applyTrace_bounded trace [] (by simp) (k, r) (rlGet_mem _ _ _ h)
    simpa using this

/-- Claim C10 witness: a rejected call on a full window leaves the state
unchanged, and a reachable record's count is within the limit. -/
theorem c10_witness :
    (checkRateLimit [("k", ⟨100, 60000⟩)] "k" 5).2 = [("k", ⟨100, 60000⟩)] ∧
    (⟨1, 60000⟩ : RLRecord).count ≤ 100 :=
  ⟨c10_reject_preserves_state.1 [("k", ⟨100, 60000⟩)] "k" 5 (by decide),
   c10_reject_preserves_state.2 [("k", 0)] "k" ⟨1, 60000⟩ (by decide)⟩

/-! ### Tree induction and the dfs refinement lemma -/

theorem sizeOf_lt_of_mem_children {cs : List (Char × TrieNode)} {c : Char} {t : TrieNode}
    (h : (c, t) ∈ cs) : sizeOf t < sizeOf cs := by
  induction cs with
  | nil => cases h
  | cons hd rest ih =>
      cases h with
      | head =>
          simp only [List.cons.sizeOf_spec, Prod.mk.sizeOf_spec]
          omega
      | tail _ hmem =>
          have := ih hmem
          simp only [List.cons.sizeOf_spec]
          omega

theorem TrieNode.inductionOn (P : TrieNode → Prop)
    (step : ∀ cs e w, (∀ c t, (c, t) ∈ cs → P t) → P (TrieNode.mk cs e w)) :
    ∀ t, P t
  | .mk cs e w => step cs e w (fun c t ht => TrieNode.inductionOn P step t)
termination_by t => sizeOf t
decreasing_by
  have := sizeOf_lt_of_mem_children ht
  simp only [TrieNode.mk.sizeOf_spec]
  omega

theorem push_match_eq (acc : List String) (e : Bool) (w : Option String) :
    (match w with
      | some wd => if e && wd ≠ "" then acc ++ [wd] else acc
      | none => acc) = acc ++ pushList e w := by
  cases w with
  | none => simp [pushList]
  | some wd =>
      by_cases h : e = true ∧ ¬wd = ""
      · simp [pushList, h]
      · simp [pushList, h]

theorem pushList_length (e : Bool) (w : Option String) : (pushList e w).length ≤ 1 := by
  cases w with
  | none => simp [pushList]
  | some wd =>
      by_cases h : e = true ∧ ¬wd = ""
      · simp [pushList, h]
      · simp [pushList, h]

theorem take_append_of_length_le {α : Type} (l₁ l₂ : List α) (n : Nat) (h : n ≤ l₁.length) :
    (l₁ ++ l₂).take n = l₁.take n := by
  rw [List.take_append_eq_append_take, Nat.sub_eq_zero_of_le h, List.take_zero,
    List.append_nil]

theorem dfsChildren_eq_take (cs : List (Char × TrieNode))
    (hIH : ∀ c t, (c, t) ∈ cs → ∀ (acc : List String) (n : Nat), acc.length ≤ n →
        dfs t acc n = (acc ++ dfsAll t).take n) :
    ∀ (acc : List String) (n : Nat), acc.length ≤ n →
      dfsChildren cs acc n = (acc ++ dfsAllChildren cs).take n := by
  induction cs with
  | nil =>
      intro acc n h
      simp only [dfsChildren, dfsAllChildren, List.append_nil]
      rw [List.take_of_length_le h]
  | cons hd rest ih =>
      obtain ⟨c, t⟩ := hd
      intro acc n h
      simp only [dfsChildren, dfsAllChildren]
      rw [hIH c t (List.mem_cons_self _ _) acc n h]
      by_cases hlen : n ≤ (acc ++ dfsAll t).length
      · rw [if_pos (by rw [List.length_take]; omega)]
        rw [← List.append_assoc, take_append_of_length_le _ _ n hlen]
      · have hlt : (acc ++ dfsAll t).length < n := Nat.lt_of_not_le hlen
        have hfull : (acc ++ dfsAll t).take n = acc ++ dfsAll t :=
          List.take_of_length_le (Nat.le_of_lt hlt)
        rw [hfull, if_neg (by omega)]
        rw [ih (fun c' t' hm => hIH c' t' (List.mem_cons_of_mem _ hm)) _ n (Nat.le_of_lt hlt)]
        rw [← List.append_assoc]

theorem dfs_eq_take (t : TrieNode) :
    ∀ (acc : List String) (n : Nat), acc.length ≤ n →
      dfs t acc n = (acc ++ dfsAll t).take n := by
  induction t using TrieNode.inductionOn with
  | step cs e w ih =>
      intro acc n h
      simp only [dfs, dfsAll]
      by_cases hge : acc.length ≥ n
      · rw [if_pos hge]
        rw [take_append_of_length_le _ _ n hge, List.take_of_length_le h]
      · rw [if_neg hge]
        rw [push_match_eq]
        have hpl := pushList_length e w
        rw [dfsChildren_eq_take cs ih (acc ++ pushList e w) n
          (by rw [List.length_append]; omega)]
        rw [List.append_assoc]

theorem search_eq_take (t : TrieNode) (p : String) (n : Nat) :
    Trie.search t p n = (searchAll t p).take n := by
  unfold Trie.search searchAll
  by_cases hp : p = ""
  · simp [hp]
  · simp only [if_neg hp]
    cases hnd : Trie.nodeAt t (lowerChars p) with
    | none => simp
    | some nd => simpa using dfs_eq_take nd [] n (by simp)

/-! ### Well-formedness: establishment and preservation -/

theorem WF_emptyNode (q : List Char) : WF q emptyNode := by
  constructor
  · intro h; simp at h
  · simp
  · intro c t hmem; simp at hmem

theorem lookupChild_mem {cs : List (Char × TrieNode)} {c : Char} {t : TrieNode}
    (h : lookupChild cs c = some t) : (c, t) ∈ cs := by
  induction cs with
  | nil => simp [lookupChild] at h
  | cons hd rest ih =>
      obtain ⟨c0, t0⟩ := hd
      by_cases h0 : c0 = c
      · subst h0
        simp [lookupChild] at h
        simp [h]
      · simp [lookupChild, h0] at h
        simp [ih h]

theorem mem_setChild {cs : List (Char × TrieNode)} {c : Char} {t : TrieNode} :
    ∀ e ∈ setChild cs c t, e = (c, t) ∨ e ∈ cs := by
  induction cs with
  | nil =>
      intro e he
      simp [setChild] at he
      left; exact he
  | cons hd rest ih =>
      obtain ⟨c0, t0⟩ := hd
      intro e he
      by_cases h0 : c0 = c
      · subst h0
        simp [setChild] at he
        rcases he with he | he
        · left; rw [he]
        · right; simp [he]
      · simp [setChild, h0] at he
        rcases he with he | he
        · right; simp [he]
        · rcases ih e he with h | h
          · left; exact h
          · right; simp [h]

theorem keys_setChild_sub {cs : List (Char × TrieNode)} {c x : Char} {t : TrieNode}
    (h : x ∈ (setChild cs c t).map Prod.fst) : x ∈ cs.map Prod.fst ∨ x = c := by
  simp only [List.mem_map] at h
  obtain ⟨e, he, hx⟩ := h
  rcases mem_setChild e he with h1 | h1
  · right; rw [h1] at hx; exact hx.symm
  · left; exact List.mem_map.mpr ⟨e, h1, hx⟩

theorem nodup_keys_setChild {cs : List (Char × TrieNode)} {c : Char} {t : TrieNode}
    (h : (cs.map Prod.fst).Nodup) : ((setChild cs c t).map Prod.fst).Nodup := by
  induction cs with
  | nil => simp [setChild]
  | cons hd rest ih =>
      obtain ⟨c0, t0⟩ := hd
      simp only [List.map_cons, List.nodup_cons] at h
      by_cases h0 : c0 = c
      · subst h0
        have hset : setChild ((c0, t0) :: rest) c0 t = (c0, t) :: rest := by
          simp [setChild]
        rw [hset, List.map_cons, List.nodup_cons]
        exact h
      · simp only [setChild, if_neg h0, List.map_cons, List.nodup_cons]
        constructor
        · intro hx
          rcases keys_setChild_sub hx with h1 | h1
          · exact h.1 h1
          · exact h0 h1
        · exact ih h.2

theorem lookup_of_mem_nodup {cs : List (Char × TrieNode)} {c : Char} {t : TrieNode}
    (hnd : (cs.map Prod.fst).Nodup) (h : (c, t) ∈ cs) : lookupChild cs c = some t := by
  induction cs with
  | nil => simp at h
  | cons hd rest ih =>
      obtain ⟨c0, t0⟩ := hd
      simp only [List.map_cons, List.nodup_cons] at hnd
      rcases List.mem_cons.mp h with h1 | h1
      · obtain ⟨hc, htt⟩ := Prod.mk.injEq .. ▸ h1
        cases h1
        simp [lookupChild]
      · have hne : c0 ≠ c := by
          intro hcc
          subst hcc
          exact hnd.1 (List.mem_map.mpr ⟨(c0, t), h1, rfl⟩)
        simp [lookupChild, hne, ih hnd.2 h1]

theorem WF_children_of_WF {q : List Char} {cs : List (Char × TrieNode)} {e : Bool}
    {w : Option String} (h : WF q (.mk cs e w)) :
    (e = true → ∃ s, w = some s ∧ s ≠ "" ∧ lowerChars s = q) ∧
    (cs.map Prod.fst).Nodup ∧ (∀ c t, (c, t) ∈ cs → WF (q ++ [c]) t) := by
  cases h with
  | mk _ _ _ _ h1 h2 h3 => exact ⟨h1, h2, h3⟩

theorem WF_insertChars (cs : List Char) :
    ∀ (q : List Char) (t : TrieNode) (w : String), WF q t → w ≠ "" →
      lowerChars w = q ++ cs → WF q (insertChars t cs w) := by
  induction cs with
  | nil =>
      intro q t w hwf hw hlc
      cases t with
      | mk cs0 e w0 =>
          obtain ⟨_, hnd, hch⟩ := WF_children_of_WF hwf
          simp only [insertChars]
          constructor
          · intro _
            exact ⟨w, rfl, hw, by simpa using hlc⟩
          · exact hnd
          · exact hch
  | cons c rest ih =>
      intro q t w hwf hw hlc
      cases t with
      | mk cs0 e w0 =>
          obtain ⟨hterm, hnd, hch⟩ := WF_children_of_WF hwf
          simp only [insertChars]
          constructor
          · exact hterm
          · exact nodup_keys_setChild hnd
          · intro c1 t1 hmem
            rcases mem_setChild _ hmem with h1 | h1
            · obtain ⟨hc1, ht1⟩ := Prod.mk.injEq .. ▸ h1
              cases h1
              apply ih (q ++ [c]) _ w _ hw
              · rw [hlc, List.append_assoc]
                rfl
              · cases hlk : lookupChild cs0 c with
                | none => simpa [hlk] using WF_emptyNode (q ++ [c])
                | some ch => simpa [hlk] using hch c ch (lookupChild_mem hlk)
            · exact hch c1 t1 h1

theorem WF_insert {t : TrieNode} (w : String) (h : WF [] t) : WF [] (Trie.insert t w) := by
  by_cases hw : w = ""
  · simpa [Trie.insert, hw] using h
  · simp only [Trie.insert, if_neg hw]
    exact WF_insertChars (lowerChars w) [] t w h hw rfl

theorem WF_buildFromArray (ws : List String) :
    ∀ t : TrieNode, WF [] t → WF [] (Trie.buildFromArray t ws) := by
  induction ws with
  | nil => intro t h; exact h
  | cons w rest ih =>
      intro t h
      exact ih (Trie.insert t w) (WF_insert w h)

theorem WF_nodeAt (q' : List Char) :
    ∀ (q : List Char) (t t' : TrieNode), WF q t → Trie.nodeAt t q' = some t' →
      WF (q ++ q') t' := by
  induction q' with
  | nil =>
      intro q t t' hwf h
      simp only [Trie.nodeAt, Option.some.injEq] at h
      rw [List.append_nil, ← h]
      exact hwf
  | cons c rest ih =>
      intro q t t' hwf h
      cases t with
      | mk cs0 e w0 =>
          obtain ⟨_, _, hch⟩ := WF_children_of_WF hwf
          simp only [Trie.nodeAt, TrieNode.children] at h
          cases hlk : lookupChild cs0 c with
          | none => rw [hlk] at h; cases h
          | some ch =>
              rw [hlk] at h
              have := ih (q ++ [c]) ch t' (hch c ch (lookupChild_mem hlk)) h
              simpa [List.append_assoc] using this

/-! ### Shape, distinctness and completeness of the pre-order enumeration -/

theorem mem_dfsAllChildren {cs : List (Char × TrieNode)} {s : String}
    (h : s ∈ dfsAllChildren cs) : ∃ c t, (c, t) ∈ cs ∧ s ∈ dfsAll t := by
  induction cs with
  | nil => simp [dfsAllChildren] at h
  | cons hd rest ih =>
      obtain ⟨c, t⟩ := hd
      simp only [dfsAllChildren, List.mem_append] at h
      rcases h with h | h
      · exact ⟨c, t, List.mem_cons_self _ _, h⟩
      · obtain ⟨c1, t1, hm, hs⟩ := ih h
        exact ⟨c1, t1, List.mem_cons_of_mem _ hm, hs⟩

theorem dfsAllChildren_mem {cs : List (Char × TrieNode)} {c : Char} {t : TrieNode}
    {s : String} (hmem : (c, t) ∈ cs) (hs : s ∈ dfsAll t) : s ∈ dfsAllChildren cs := by
  induction cs with
  | nil => simp at hmem
  | cons hd rest ih =>
      obtain ⟨ch, th⟩ := hd
      simp only [dfsAllChildren, List.mem_append]
      rcases List.mem_cons.mp hmem with h | h
      · injection h with h1 h2
        subst h1
        subst h2
        left
        exact hs
      · right
        exact ih h

theorem mem_pushList {e : Bool} {w : Option String} {a : String} (h : a ∈ pushList e w) :
    e = true ∧ w = some a ∧ a ≠ "" := by
  cases w with
  | none => simp [pushList] at h
  | some wd =>
      by_cases hc : e = true ∧ ¬wd = ""
      · simp [pushList, hc] at h
        subst h
        exact ⟨hc.1, rfl, hc.2⟩
      · simp [pushList, hc] at h

theorem storedAt_cons {cs : List (Char × TrieNode)} {e : Bool} {w : Option String}
    {c : Char} {q : List Char} {t' : TrieNode} (h : lookupChild cs c = some t') :
    storedAt (.mk cs e w) (c :: q) = storedAt t' q := by
  simp only [storedAt, Trie.nodeAt, TrieNode.children, h]

theorem dfsAll_shape (t : TrieNode) :
    ∀ (q : List Char), WF q t → ∀ s ∈ dfsAll t,
      ∃ suffix, lowerChars s = q ++ suffix ∧ storedAt t suffix = some s := by
  induction t using TrieNode.inductionOn with
  | step cs e w ih =>
      intro q hwf s hs
      obtain ⟨hterm, hnd, hch⟩ := WF_children_of_WF hwf
      simp only [dfsAll, List.mem_append] at hs
      rcases hs with hs | hs
      · obtain ⟨he, hw, hne⟩ := mem_pushList hs
        subst he
        obtain ⟨s0, hs0, hne0, hlc0⟩ := hterm rfl
        rw [hw] at hs0
        injection hs0 with hs0
        refine ⟨[], ?_, ?_⟩
        · rw [List.append_nil, hs0]
          exact hlc0
        · simp [storedAt, Trie.nodeAt, TrieNode.isEndOfWord, TrieNode.word, hw]
      · obtain ⟨c, t', hmem, hs'⟩ := mem_dfsAllChildren hs
        obtain ⟨suffix, hlc, hst⟩ := ih c t' hmem (q ++ [c]) (hch c t' hmem) s hs'
        refine ⟨c :: suffix, ?_, ?_⟩
        · rw [hlc, List.append_assoc]
          rfl
        · rw [storedAt_cons (lookup_of_mem_nodup hnd hmem)]
          exact hst

theorem dfsAllChildren_pairwise (q : List Char) :
    ∀ (cs : List (Char × TrieNode)),
      (∀ c t, (c, t) ∈ cs → WF (q ++ [c]) t) →
      (∀ c t, (c, t) ∈ cs → (dfsAll t).Pairwise (fun a b => lowerChars a ≠ lowerChars b)) →
      (cs.map Prod.fst).Nodup →
      (dfsAllChildren cs).Pairwise (fun a b => lowerChars a ≠ lowerChars b) := by
  intro cs
  induction cs with
  | nil =>
      intro _ _ _
      simp [dfsAllChildren]
  | cons hd rest ihcs =>
      obtain ⟨c, t⟩ := hd
      intro hwf hpw hnd
      simp only [dfsAllChildren]
      rw [List.pairwise_append]
      simp only [List.map_cons, List.nodup_cons] at hnd
      refine ⟨hpw c t (List.mem_cons_self _ _), ?_, ?_⟩
      · exact ihcs (fun c1 t1 hm => hwf c1 t1 (List.mem_cons_of_mem _ hm))
          (fun c1 t1 hm => hpw c1 t1 (List.mem_cons_of_mem _ hm)) hnd.2
      · intro a ha b hb
        obtain ⟨sa, hla, _⟩ :=
          dfsAll_shape t (q ++ [c]) (hwf c t (List.mem_cons_self _ _)) a ha
        obtain ⟨c2, t2, hm2, hb2⟩ := mem_dfsAllChildren hb
        obtain ⟨sb, hlb, _⟩ :=
          dfsAll_shape t2 (q ++ [c2]) (hwf c2 t2 (List.mem_cons_of_mem _ hm2)) b hb2
        intro heq
        have hcc : c ≠ c2 := by
          intro hc
          subst hc
          exact hnd.1 (List.mem_map.mpr ⟨(c, t2), hm2, rfl⟩)
        rw [hla, hlb, List.append_assoc, List.append_assoc] at heq
        have hc2 := List.append_cancel_left heq
        simp only [List.singleton_append, List.cons.injEq] at hc2
        exact hcc hc2.1

theorem dfsAll_pairwise (t : TrieNode) :
    ∀ (q : List Char), WF q t →
      (dfsAll t).Pairwise (fun a b => lowerChars a ≠ lowerChars b) := by
  induction t using TrieNode.inductionOn with
  | step cs e w ih =>
      intro q hwf
      obtain ⟨hterm, hnd, hch⟩ := WF_children_of_WF hwf
      simp only [dfsAll]
      rw [List.pairwise_append]
      refine ⟨?_, ?_, ?_⟩
      · cases w with
        | none => simp [pushList]
        | some wd =>
            by_cases hc : e = true ∧ ¬wd = "" <;> simp [pushList, hc]
      · exact dfsAllChildren_pairwise q cs hch
          (fun c t' hm => ih c t' hm (q ++ [c]) (hch c t' hm)) hnd
      · intro a ha b hb
        obtain ⟨he, hw, hne⟩ := mem_pushList ha
        obtain ⟨s0, hs0, hne0, hlc0⟩ := hterm he
        rw [hw] at hs0
        injection hs0 with hs0
        obtain ⟨c2, t2, hm2, hb2⟩ := mem_dfsAllChildren hb
        obtain ⟨sb, hlb, _⟩ := dfsAll_shape t2 (q ++ [c2]) (hch c2 t2 hm2) b hb2
        intro heq
        rw [← hs0] at hlc0
        rw [hlc0, hlb] at heq
        have hlen := congrArg List.length heq
        simp [List.length_append] at hlen

theorem mem_dfsAll_of_storedAt (suffix : List Char) :
    ∀ (q : List Char) (t : TrieNode) (s : String), WF q t →
      storedAt t suffix = some s → s ∈ dfsAll t := by
  induction suffix with
  | nil =>
      intro q t s hwf hst
      cases t with
      | mk cs e w =>
          obtain ⟨hterm, _, _⟩ := WF_children_of_WF hwf
          cases e with
          | false => simp [storedAt, Trie.nodeAt, TrieNode.isEndOfWord] at hst
          | true =>
              simp only [storedAt, Trie.nodeAt, TrieNode.isEndOfWord, TrieNode.word,
                if_pos] at hst
              obtain ⟨s0, hs0, hne0, _⟩ := hterm rfl
              rw [hst] at hs0
              injection hs0 with hs0
              simp only [dfsAll, List.mem_append]
              left
              rw [hst]
              simp [pushList, hs0 ▸ hne0]
  | cons c rest ih =>
      intro q t s hwf hst
      cases t with
      | mk cs e w =>
          obtain ⟨_, _, hch⟩ := WF_children_of_WF hwf
          cases hlk : lookupChild cs c with
          | none => simp [storedAt, Trie.nodeAt, TrieNode.children, hlk] at hst
          | some t' =>
              rw [storedAt_cons hlk] at hst
              have hmem := lookupChild_mem hlk
              have hin := ih (q ++ [c]) t' s (hch c t' hmem) hst
              simp only [dfsAll, List.mem_append]
              right
              exact dfsAllChildren_mem hmem hin

theorem nodeAt_append (q1 : List Char) :
    ∀ (q2 : List Char) (t : TrieNode),
      Trie.nodeAt t (q1 ++ q2) = (Trie.nodeAt t q1).bind (fun t' => Trie.nodeAt t' q2) := by
  induction q1 with
  | nil => intro q2 t; simp [Trie.nodeAt]
  | cons c rest ih =>
      intro q2 t
      cases t with
      | mk cs e w =>
          simp only [List.cons_append, Trie.nodeAt, TrieNode.children]
          cases hlk : lookupChild cs c with
          | none => simp
          | some ch => simp [ih]

theorem storedAt_append {t nd : TrieNode} {q1 q2 : List Char}
    (h : Trie.nodeAt t q1 = some nd) : storedAt t (q1 ++ q2) = storedAt nd q2 := by
  simp only [storedAt, nodeAt_append, h, Option.bind]

theorem mem_take_of_indexOf_lt {l : List String} {a : String} {n : Nat}
    (hmem : a ∈ l) (hidx : l.indexOf a < n) : a ∈ l.take n := by
  have hlen : l.indexOf a < l.length := List.indexOf_lt_length.mpr hmem
  have hget : l.get ⟨l.indexOf a, hlen⟩ = a := List.indexOf_get hlen
  have hlt : l.indexOf a < (l.take n).length := by
    rw [List.length_take]
    omega
  have hgt : (l.take n).get ⟨l.indexOf a, hlt⟩ = a := by
    rw [List.get_eq_getElem, List.getElem_take]
    exact hget
  rw [← hgt]
  exact List.get_mem _ _ _

/-! ### Claims C4 and C5 -/

/-- Claim C4: `searchPrefix` postconditions — on any trie built by a
sequence of inserts, `search(p, n)` returns at most `n` results; every
result's lowercase form extends the lowercased `p`; the results contain no
duplicates; and each result is exactly the original form stored for its
lowercase key in the trie at call time. -/
theorem c4_search_postconditions (ws : List String) (p : String) (n : Nat) :
    (Trie.search (Trie.buildFromArray emptyNode ws) p n).length ≤ n ∧
    (∀ r ∈ Trie.search (Trie.buildFromArray emptyNode ws) p n,
        ∃ suffix, lowerChars r = lowerChars p ++ suffix) ∧
    (Trie.search (Trie.buildFromArray emptyNode ws) p n).Nodup ∧
    (∀ r ∈ Trie.search (Trie.buildFromArray emptyNode ws) p n,
        storedAt (Trie.buildFromArray emptyNode ws) (lowerChars r) = some r) := by
  have hwf : WF [] (Trie.buildFromArray emptyNode ws) :=
    WF_buildFromArray ws emptyNode (WF_emptyNode [])
  set t := Trie.buildFromArray emptyNode ws with ht
  have hmem : ∀ r ∈ Trie.search t p n,
      ∃ nd, Trie.nodeAt t (lowerChars p) = some nd ∧ r ∈ dfsAll nd := by
    intro r hr
    rw [search_eq_take] at hr
    have hr' := List.take_subset n _ hr
    unfold searchAll at hr'
    by_cases hp : p = ""
    · rw [if_pos hp] at hr'
      cases hr'
    · rw [if_neg hp] at hr'
      cases hnd : Trie.nodeAt t (lowerChars p) with
      | none => rw [hnd] at hr'; cases hr'
      | some nd => rw [hnd] at hr'; exact ⟨nd, rfl, hr'⟩
  refine ⟨?_, ?_, ?_, ?_⟩
  · rw [search_eq_take, List.length_take]
    exact Nat.min_le_left _ _
  · intro r hr
    obtain ⟨nd, hnd, hrd⟩ := hmem r hr
    have hwfnd : WF (lowerChars p) nd := by
      have := WF_nodeAt (lowerChars p) [] t nd hwf hnd
      simpa using this
    obtain ⟨suffix, hlc, _⟩ := dfsAll_shape nd (lowerChars p) hwfnd r hrd
    exact ⟨suffix, hlc⟩
  · rw [search_eq_take]
    have hnodup : (searchAll t p).Nodup := by
      unfold searchAll
      by_cases hp : p = ""
      · simp [hp]
      · rw [if_neg hp]
        cases hnd : Trie.nodeAt t (lowerChars p) with
        | none => simp
        | some nd =>
            have hwfnd : WF (lowerChars p) nd := by
              have := WF_nodeAt (lowerChars p) [] t nd hwf hnd
              simpa using this
            exact (dfsAll_pairwise nd (lowerChars p) hwfnd).imp
              (fun hab heq => hab (congrArg lowerChars heq))
    exact hnodup.sublist (List.take_sublist n _)
  · intro r hr
    obtain ⟨nd, hnd, hrd⟩ := hmem r hr
    have hwfnd : WF (lowerChars p) nd := by
      have := WF_nodeAt (lowerChars p) [] t nd hwf hnd
      simpa using this
    obtain ⟨suffix, hlc, hst⟩ := dfsAll_shape nd (lowerChars p) hwfnd r hrd
    rw [hlc, storedAt_append hnd]
    exact hst

/-- Claim C4 witness: the postconditions instantiated on the trie built
from `["cat", "car"]` with prefix `"ca"` and cap 5, and the two
universally quantified parts applied to the concrete result `"cat"`. -/
theorem c4_witness :
    (Trie.search (Trie.buildFromArray emptyNode ["cat", "car"]) "ca" 5).length ≤ 5 ∧
    (∃ suffix, lowerChars "cat" = lowerChars "ca" ++ suffix) ∧
    storedAt (Trie.buildFromArray emptyNode ["cat", "car"]) (lowerChars "cat") =
      some "cat" :=
  ⟨(c4_search_postconditions ["cat", "car"] "ca" 5).1,
   (c4_search_postconditions ["cat", "car"] "ca" 5).2.1 "cat" (by decide),
   (c4_search_postconditions ["cat", "car"] "ca" 5).2.2.2 "cat" (by decide)⟩

/-- Claim C5: `searchPrefix` completeness — on any trie built by a
sequence of inserts, for a non-empty prefix `p` and a word entry stored in
the index under the lowercase key `lowerChars w` whose lowercase form
extends the lowercased `p`, if fewer than `n` qualifying entries precede it
in the pre-order traversal from the prefix node (its index in `searchAll`,
the uncapped traversal sequence, is below `n`), then its stored original
form appears in `search(p, n)`. -/
theorem c5_search_completeness (ws : List String) (p w : String) (n : Nat)
    (hp : p ≠ "")
    (hstored : storedAt (Trie.buildFromArray emptyNode ws) (lowerChars w) = some w)
    (hpre : ∃ suffix, lowerChars w = lowerChars p ++ suffix)
    (hidx : (searchAll (Trie.buildFromArray emptyNode ws) p).indexOf w < n) :
    w ∈ Trie.search (Trie.buildFromArray emptyNode ws) p n := by
  have hwf : WF [] (Trie.buildFromArray emptyNode ws) :=
    WF_buildFromArray ws emptyNode (WF_emptyNode [])
  set t := Trie.buildFromArray emptyNode ws with ht
  obtain ⟨suffix, hsuf⟩ := hpre
  rw [hsuf] at hstored
  cases hnd : Trie.nodeAt t (lowerChars p) with
  | none => simp [storedAt, nodeAt_append, hnd] at hstored
  | some nd =>
      rw [storedAt_append hnd] at hstored
      have hwfnd : WF (lowerChars p) nd := by
        have := WF_nodeAt (lowerChars p) [] t nd hwf hnd
        simpa using this
      have hmem : w ∈ dfsAll nd :=
        mem_dfsAll_of_storedAt suffix (lowerChars p) nd w hwfnd hstored
      have hall : searchAll t p = dfsAll nd := by
        unfold searchAll
        rw [if_neg hp, hnd]
      rw [search_eq_take, hall]
      rw [hall] at hidx
      exact mem_take_of_indexOf_lt hmem hidx

/-- Claim C5 witness: in the trie built from `["app", "apple"]`, the entry
`"app"` is at index 0 of the traversal from the `"ap"` node, so it appears
even with the cap of 1. -/
theorem c5_witness :
    "app" ∈ Trie.search (Trie.buildFromArray emptyNode ["app", "apple"]) "ap" 1 :=
  c5_search_completeness ["app", "apple"] "ap" "app" 1 (by decide) (by decide)
    ⟨['p'], by decide⟩ (by decide)
